import Mathlib

/-!
Verification of the task-discovery pipeline of mise-tasks-discover-action.

The embedded code is the pure core of the repository:
  - `parseMiseTasks`, `filterByPrefix`, `groupByProject` from src/task-parser.ts
  - `filterByChangedSources` from src/change-detector.ts

JavaScript string primitives used by the source (`startsWith`, `slice`,
`indexOf`) are embedded as functions on `String` via its character list,
matching the JS semantics on the relevant inputs.  The external `exec`
capability of the change detector is a parameter `git : List String →
ExecOutcome`; calls to `core.info` / `core.warning` / `exec.exec` are
recorded as a trace of `LogEvent`s so that the number and shape of the
issued diff queries is observable.
-/

namespace MiseDiscover

/-- Raw task record of `mise tasks ls --all --json` (interface `MiseTask` in
src/task-parser.ts).  `sources` is an `Option` because the raw record may
lack the field or carry `null`; the code reads it as `t.sources ?? []`. -/
structure MiseTask where
  name : String
  source : String := ""
  description : String := ""
  sources : Option (List String) := none
  outputs : List String := []
  depends : List String := []
deriving Repr, DecidableEq

/-- Parsed task with the monorepo project extracted (interface `ParsedTask`
in src/task-parser.ts).  `task` is the full original name. -/
structure ParsedTask where
  project : String
  task : String
  localName : String
  sources : List String
deriving Repr, DecidableEq

/-- A group of tasks belonging to the same project (interface `ProjectGroup`
in src/task-parser.ts); `tasks` is the joined string. -/
structure ProjectGroup where
  project : String
  tasks : String
deriving Repr, DecidableEq

/-- JS `s.startsWith(p)`. -/
def jsStartsWith (s p : String) : Bool :=
  p.data.isPrefixOf s.data

/-- JS `s.slice(i)` for a nonnegative index `i`. -/
def jsSliceFrom (s : String) (i : Nat) : String :=
  String.mk (s.data.drop i)

/-- JS `s.slice(0, j)` for a nonnegative index `j`. -/
def jsTake (s : String) (j : Nat) : String :=
  String.mk (s.data.take j)

/-- Index of the first occurrence of `c` in a character list
(`none` plays the role of JS `-1`). -/
def jsIndexOfCharAux (c : Char) : List Char → Option Nat
  | [] => none
  | a :: rest => if a = c then some 0 else (jsIndexOfCharAux c rest).map (· + 1)

/-- JS `s.indexOf(c)` for a single character `c`. -/
def jsIndexOfChar (s : String) (c : Char) : Option Nat :=
  jsIndexOfCharAux c s.data

/-- Body of the `raw.map` in `parseMiseTasks` (src/task-parser.ts):
splits a monorepo name `//path:task` into project and local name,
normalizes an empty project path to `"."`, defaults `sources` to `[]`. -/
def parseMiseTask (t : MiseTask) : ParsedTask :=
  let name := t.name
  if jsStartsWith name "//" then
    let withoutPrefix := jsSliceFrom name 2
    match jsIndexOfChar withoutPrefix ':' with
    | some colonIdx =>
        let project := jsTake withoutPrefix colonIdx
        let localName := jsSliceFrom withoutPrefix (colonIdx + 1)
        { project := if project = "" then "." else project
          task := name
          localName := localName
          sources := t.sources.getD [] }
    | none =>
        let project := withoutPrefix
        { project := if project = "" then "." else project
          task := name
          localName := ""
          sources := t.sources.getD [] }
  else
    { project := "."
      task := name
      localName := name
      sources := t.sources.getD [] }

/-- Embedding of `parseMiseTasks` (src/task-parser.ts): `raw.map(...)`. -/
def parseMiseTasks (raw : List MiseTask) : List ParsedTask :=
  raw.map parseMiseTask

/-- Embedding of `filterByPrefix` (src/task-parser.ts). -/
def filterByPrefix (tasks : List ParsedTask) (pfx : String) : List ParsedTask :=
  if pfx = "" then tasks
  else tasks.filter (fun t => jsStartsWith t.localName pfx)

/-- One step of the `Map`-building loop of `groupByProject`
(src/task-parser.ts): append the task name to the project's list if the
key is present, otherwise put the new key at the end (JS `Map` iterates
in insertion order). -/
def addTask : List (String × List String) → String → String → List (String × List String)
  | [], p, n => [(p, [n])]
  | (q, ns) :: rest, p, n =>
    if q = p then (q, ns ++ [n]) :: rest
    else (q, ns) :: addTask rest p n

/-- Embedding of `groupByProject` (src/task-parser.ts): build the insertion-ordered map,
then emit one group per key with the names joined by `" ::: "`. -/
def groupByProject (tasks : List ParsedTask) : List ProjectGroup :=
  let m := tasks.foldl (fun acc t => addTask acc t.project t.task) []
  m.map (fun e => { project := e.1, tasks := String.intercalate " ::: " e.2 })

/-- Outcome of one `exec.exec('git', ...)` invocation: a returned exit
code, or a thrown fault (e.g. git not found). -/
inductive ExecOutcome where
  | code (exitCode : Nat)
  | fault
deriving Repr, DecidableEq

/-- Observable events of `filterByChangedSources`: `core.info`,
`core.warning`, and each issued `git` invocation with its arguments. -/
inductive LogEvent where
  | info (msg : String)
  | warning (msg : String)
  | execGit (args : List String)
deriving Repr, DecidableEq

/-- The argument list of the diff query for one task
(src/change-detector.ts): the pathspecs, one per source glob, each
`:(glob)`-prefixed and localized to the task's project unless the
project is the root `"."`. -/
def gitDiffArgs (baseRef : String) (task : ParsedTask) : List String :=
  let pathspecs := task.sources.map (fun glob =>
    if task.project = "." then ":(glob)" ++ glob
    else ":(glob)" ++ task.project ++ "/" ++ glob)
  ["diff", "--quiet", baseRef, "HEAD", "--"] ++ pathspecs

/-- The `for (const task of tasks)` loop of `filterByChangedSources`
(src/change-detector.ts), threading the list of kept tasks and the trace
of emitted events.  `git` is the external `exec.exec('git', ...)`
capability. -/
def filterLoop (git : List String → ExecOutcome) (baseRef : String) :
    List ParsedTask → List ParsedTask × List LogEvent
  | [] => ([], [])
  | task :: rest =>
    let restPair := filterLoop git baseRef rest
    if task.sources.length = 0 then
      (task :: restPair.1, .info s!"  {task.task}: no sources, included" :: restPair.2)
    else
      let args := gitDiffArgs baseRef task
      match git args with
      | .code 0 =>
          (restPair.1,
            .execGit args :: .info s!"  {task.task}: unchanged, skipped" :: restPair.2)
      | .code _ =>
          (task :: restPair.1,
            .execGit args :: .info s!"  {task.task}: changed, included" :: restPair.2)
      | .fault =>
          (task :: restPair.1,
            .execGit args ::
              .warning s!"  {task.task}: git diff failed, included (fail-open)" :: restPair.2)

/-- Embedding of `filterByChangedSources` (src/change-detector.ts): header log line,
then the per-task loop. -/
def filterByChangedSources (git : List String → ExecOutcome)
    (tasks : List ParsedTask) (baseRef : String) :
    List ParsedTask × List LogEvent :=
  let p := filterLoop git baseRef tasks
  (p.1, .info s!"Filtering tasks by changes since {baseRef}..." :: p.2)

/-- The path qualifier a name carries according to the spec's parsing rule:
the remainder after the marker up to the first colon, or the whole
remainder when there is no colon. -/
def specQualifier (name : String) : String :=
  match jsIndexOfChar (jsSliceFrom name 2) ':' with
  | some i => jsTake (jsSliceFrom name 2) i
  | none => jsSliceFrom name 2

/-- Whether a character list contains the two-character marker `//`
anywhere (as a contiguous substring). -/
def containsMarker : List Char → Bool
  | [] => false
  | a :: rest => List.isPrefixOf "//".data (a :: rest) || containsMarker rest

/-- The pathspec the spec describes for one source glob, amended with the
`:(glob)` magic marker the code always prepends: localized to the project
subtree unless the project is the root `"."`. -/
def specPathspec (project glob : String) : String :=
  if project = "." then ":(glob)" ++ glob
  else ":(glob)" ++ project ++ "/" ++ glob

/-- The argument lists of the `git` invocations recorded in a trace. -/
def execArgsOf : List LogEvent → List (List String)
  | [] => []
  | .execGit a :: rest => a :: execArgsOf rest
  | .info _ :: rest => execArgsOf rest
  | .warning _ :: rest => execArgsOf rest

/-- Keys of the insertion-ordered map, in order. -/
def keysOf (m : List (String × List String)) : List String := m.map Prod.fst

/-- Lookup of a project's accumulated task names in the map. -/
def getTaskList : List (String × List String) → String → List String
  | [], _ => []
  | (k, ns) :: rest, p => if k = p then ns else getTaskList rest p

/-- The distinct values of a list in order of first appearance, given an
initial set of already-seen values (spec §4.4, §8 grouping order). -/
def firstSeen (seen : List String) : List String → List String
  | [] => []
  | p :: rest => if p ∈ seen then firstSeen seen rest else p :: firstSeen (p :: seen) rest


theorem data_jsSliceFrom (s : String) (i : Nat) : (jsSliceFrom s i).data = s.data.drop i := rfl

theorem data_jsTake (s : String) (j : Nat) : (jsTake s j).data = s.data.take j := rfl

theorem mk_eq_empty_iff (l : List Char) : String.mk l = "" ↔ l = [] := by
  constructor
  · intro h
    simpa using congrArg String.data h
  · intro h
    rw [h]

theorem jsIndexOfCharAux_first (c : Char) (pre post : List Char) (h : c ∉ pre) :
    jsIndexOfCharAux c (pre ++ c :: post) = some pre.length := by
  induction pre with
  | nil => simp [jsIndexOfCharAux]
  | cons a as ih =>
    have ha : a ≠ c := fun e => h (e ▸ List.mem_cons_self a as)
    have h' : c ∉ as := fun m => h (List.mem_cons_of_mem a m)
    simp [jsIndexOfCharAux, ha, ih h']

theorem startsWith_marker {s : String} {l : List Char}
    (h : s.data = '/' :: '/' :: l) : jsStartsWith s "//" = true := by
  have hm : "//".data = ['/', '/'] := rfl
  rw [jsStartsWith, hm, h]
  simp [List.isPrefixOf]

/-- C1: splitting of a marker-carrying name at its first colon (amended:
requires the part before the first colon to be non-empty). -/
theorem parse_splits_at_first_colon (t : MiseTask) (pre post : List Char)
    (hname : t.name.data = '/' :: '/' :: (pre ++ ':' :: post))
    (hfirst : ':' ∉ pre) (hne : pre ≠ []) :
    parseMiseTask t =
      { project := String.mk pre, task := t.name,
        localName := String.mk post, sources := t.sources.getD [] } := by
  have hsw := startsWith_marker hname
  have hrem : (jsSliceFrom t.name 2).data = pre ++ ':' :: post := by
    rw [data_jsSliceFrom, hname]
    rfl
  have hidx : jsIndexOfChar (jsSliceFrom t.name 2) ':' = some pre.length := by
    rw [jsIndexOfChar, hrem]
    exact jsIndexOfCharAux_first ':' pre post hfirst
  have htake : jsTake (jsSliceFrom t.name 2) pre.length = String.mk pre := by
    have : (jsTake (jsSliceFrom t.name 2) pre.length).data = pre := by
      rw [data_jsTake, hrem]
      exact List.take_left pre (':' :: post)
    cases hq : jsTake (jsSliceFrom t.name 2) pre.length with
    | mk l => rw [hq] at this; exact congrArg String.mk this
  have hdrop : jsSliceFrom (jsSliceFrom t.name 2) (pre.length + 1) = String.mk post := by
    have hsplit : pre ++ ':' :: post = (pre ++ [':']) ++ post := by simp
    have hlen : (pre ++ [':']).length = pre.length + 1 := by simp
    have : (jsSliceFrom (jsSliceFrom t.name 2) (pre.length + 1)).data = post := by
      rw [data_jsSliceFrom, hrem, hsplit, ← hlen]
      exact List.drop_left _ _
    cases hq : jsSliceFrom (jsSliceFrom t.name 2) (pre.length + 1) with
    | mk l => rw [hq] at this; exact congrArg String.mk this
  have hne' : ¬ (String.mk pre = "") := fun h => hne ((mk_eq_empty_iff pre).mp h)
  simp [parseMiseTask, hsw, hidx, htake, hdrop, hne']

/-- C8: a name of the form `//:task` normalizes to project `"."` with the
part after the colon as local name; a name without the marker keeps its
name verbatim as local name under project `"."`. -/
theorem parse_root_qualifier :
    (∀ (t : MiseTask) (post : List Char), t.name.data = '/' :: '/' :: ':' :: post →
      parseMiseTask t =
        { project := ".", task := t.name, localName := String.mk post,
          sources := t.sources.getD [] })
    ∧ ∀ t : MiseTask, jsStartsWith t.name "//" = false →
      parseMiseTask t =
        { project := ".", task := t.name, localName := t.name,
          sources := t.sources.getD [] } := by
  constructor
  · intro t post hname
    have hsw := startsWith_marker hname
    have hrem : (jsSliceFrom t.name 2).data = ':' :: post := by
      rw [data_jsSliceFrom, hname]
      rfl
    have hidx : jsIndexOfChar (jsSliceFrom t.name 2) ':' = some 0 := by
      rw [jsIndexOfChar, hrem]
      simp [jsIndexOfCharAux]
    have htake : jsTake (jsSliceFrom t.name 2) 0 = "" := by
      have : (jsTake (jsSliceFrom t.name 2) 0).data = [] := by
        rw [data_jsTake]
        simp
      cases hq : jsTake (jsSliceFrom t.name 2) 0 with
      | mk l => rw [hq] at this; exact congrArg String.mk this
    have hdrop : jsSliceFrom (jsSliceFrom t.name 2) 1 = String.mk post := by
      have : (jsSliceFrom (jsSliceFrom t.name 2) 1).data = post := by
        rw [data_jsSliceFrom, hrem]
        rfl
      cases hq : jsSliceFrom (jsSliceFrom t.name 2) 1 with
      | mk l => rw [hq] at this; exact congrArg String.mk this
    simp [parseMiseTask, hsw, hidx, htake, hdrop]
  · intro t h
    simp [parseMiseTask, h]

/-- C9: the normalizer is total and order-preserving (one output per input,
the i-th output parsed from the i-th input), and absent sources become the
empty list. -/
theorem parse_total (raw : List MiseTask) :
    (parseMiseTasks raw).length = raw.length
    ∧ (∀ i : Nat, (parseMiseTasks raw)[i]? = (raw[i]?).map parseMiseTask)
    ∧ ∀ t : MiseTask, t.sources = none → (parseMiseTask t).sources = [] := by
  refine ⟨by simp [parseMiseTasks], fun i => by simp [parseMiseTasks], fun t h => ?_⟩
  simp only [parseMiseTask]
  split
  · split <;> simp [h]
  · simp [h]

theorem parse_root_qualifier_witness :
    ("//:ci:build".data = '/' :: '/' :: ':' :: "ci:build".data)
    ∧ parseMiseTask { name := "//:ci:build" }
      = { project := ".", task := "//:ci:build", localName := "ci:build", sources := [] }
    ∧ jsStartsWith "ci:build" "//" = false
    ∧ parseMiseTask { name := "ci:build" }
      = { project := ".", task := "ci:build", localName := "ci:build", sources := [] } :=
  ⟨by decide,
    parse_root_qualifier.1 { name := "//:ci:build" } "ci:build".data (by decide),
    by decide,
    parse_root_qualifier.2 { name := "ci:build" } (by decide)⟩

theorem parse_total_witness :
    ({ name := "ci:build" } : MiseTask).sources = none
    ∧ (parseMiseTask { name := "ci:build" }).sources = [] :=
  ⟨rfl, (parse_total []).2.2 { name := "ci:build" } rfl⟩

theorem length_pos_of_ne_empty {s : String} (h : s ≠ "") : 0 < s.length := by
  cases s with
  | mk l =>
    cases l with
    | nil => exact absurd rfl h
    | cons a as => simp [String.length]

/-- C10: the name `//` (marker, no colon) normalizes to project `"."` with
empty local name, and no parsed task ever has an empty project. -/
theorem parse_empty_remainder :
    (parseMiseTask { name := "//" }).project = "."
    ∧ (parseMiseTask { name := "//" }).localName = ""
    ∧ ∀ t : MiseTask, 0 < (parseMiseTask t).project.length := by
  refine ⟨by decide, by decide, fun t => ?_⟩
  simp only [parseMiseTask]
  split
  · split <;>
      · dsimp only
        split
        · decide
        · rename_i hp
          exact length_pos_of_ne_empty hp
  · dsimp only
    decide


/-- C1 counterexample: for the name `//:ci:build` the marker is present and
the remainder contains a colon, yet the parsed project is not the part of
the remainder before the first colon (the empty string): it is `"."`. -/
theorem parse_split_counterexample :
    jsStartsWith "//:ci:build" "//" = true
    ∧ jsIndexOfChar (jsSliceFrom "//:ci:build" 2) ':' = some 0
    ∧ (parseMiseTask { name := "//:ci:build" }).project
        ≠ jsTake (jsSliceFrom "//:ci:build" 2) 0 := by
  decide

theorem parse_splits_at_first_colon_witness :
    ("//services/api:ci:build".data
        = '/' :: '/' :: ("services/api".data ++ ':' :: "ci:build".data))
    ∧ parseMiseTask { name := "//services/api:ci:build", sources := some ["src/**"] }
      = { project := "services/api", task := "//services/api:ci:build",
          localName := "ci:build", sources := ["src/**"] } :=
  ⟨by decide,
    parse_splits_at_first_colon
      { name := "//services/api:ci:build", sources := some ["src/**"] }
      "services/api".data "ci:build".data (by decide) (by decide) (by decide)⟩

theorem not_containsMarker_head {l : List Char} (h : containsMarker l = false) :
    List.isPrefixOf "//".data l = false := by
  cases l with
  | nil => decide
  | cons a rest =>
    simp only [containsMarker, Bool.or_eq_false_iff] at h
    exact h.1

theorem not_containsMarker_drop (n : Nat) {l : List Char} (h : containsMarker l = false) :
    containsMarker (l.drop n) = false := by
  induction n generalizing l with
  | zero => simpa using h
  | succ n ih =>
    cases l with
    | nil => exact h
    | cons a rest =>
      simp only [containsMarker, Bool.or_eq_false_iff] at h
      exact ih h.2

/-- C4 amended: the parsed project is `"."` iff the name carries no path
qualifier, an empty one, or the one-character qualifier `"."`; and when the
name contains the `//` marker nowhere after its leading two characters, the
local name never begins with the marker syntax. -/
theorem parse_project_invariant (t : MiseTask) :
    ((parseMiseTask t).project = "."
      ↔ (jsStartsWith t.name "//" = false ∨ specQualifier t.name = ""
          ∨ specQualifier t.name = "."))
    ∧ (containsMarker (jsSliceFrom t.name 2).data = false →
        jsStartsWith (parseMiseTask t).localName "//" = false) := by
  constructor
  · cases hb : jsStartsWith t.name "//" with
    | false => simp [parseMiseTask, hb]
    | true =>
      simp only [parseMiseTask, hb]
      cases hidx : jsIndexOfChar (jsSliceFrom t.name 2) ':' with
      | some i =>
        simp only [specQualifier, hidx]
        by_cases hq : jsTake (jsSliceFrom t.name 2) i = "" <;> simp [hq]
      | none =>
        simp only [specQualifier, hidx]
        by_cases hq : jsSliceFrom t.name 2 = "" <;> simp [hq]
  · intro h
    cases hb : jsStartsWith t.name "//" with
    | false => simp [parseMiseTask, hb]
    | true =>
      simp only [parseMiseTask, hb]
      cases hidx : jsIndexOfChar (jsSliceFrom t.name 2) ':' with
      | some i =>
        simp only [hidx]
        rw [jsStartsWith]
        exact not_containsMarker_head (not_containsMarker_drop (i + 1) h)
      | none =>
        have hm : "//".data = ['/', '/'] := rfl
        simp [hidx, jsStartsWith, hm, List.isPrefixOf]

theorem parse_project_invariant_witness :
    containsMarker (jsSliceFrom "//services/api:ci:build" 2).data = false
    ∧ jsStartsWith (parseMiseTask { name := "//services/api:ci:build" }).localName "//"
        = false :=
  ⟨by decide,
    (parse_project_invariant { name := "//services/api:ci:build" }).2 (by decide)⟩

/-- C4 counterexample: the name `//.://x:y` carries the non-empty path
qualifier `"."`, yet its parsed project is `"."`; and its local name
`//x:y` begins with the monorepo marker syntax. -/
theorem parse_project_invariant_counterexample :
    jsStartsWith "//.://x:y" "//" = true
    ∧ specQualifier "//.://x:y" ≠ ""
    ∧ (parseMiseTask { name := "//.://x:y" }).project = "."
    ∧ jsStartsWith (parseMiseTask { name := "//.://x:y" }).localName "//" = true := by
  decide

theorem isPrefixOf_true_iff {α} [BEq α] [LawfulBEq α] (l₁ l₂ : List α) :
    l₁.isPrefixOf l₂ = true ↔ l₁ <+: l₂ := by
  induction l₁ generalizing l₂ with
  | nil => simp [List.isPrefixOf]
  | cons a as ih =>
    cases l₂ with
    | nil => simp [List.isPrefixOf]
    | cons b bs => simp [List.isPrefixOf, ih, List.cons_prefix_cons]

theorem isPrefixOf_eq_decide {α} [BEq α] [LawfulBEq α] [DecidableEq α] (l₁ l₂ : List α) :
    l₁.isPrefixOf l₂ = decide (l₁ <+: l₂) := by
  rw [Bool.eq_iff_iff]
  simp [isPrefixOf_true_iff]

/-- C6: the empty prefix is the identity; a non-empty prefix retains
exactly the tasks whose local name has it as a literal string prefix,
preserving order. -/
theorem filterByPrefix_spec (tasks : List ParsedTask) (pfx : String) :
    filterByPrefix tasks "" = tasks
    ∧ (pfx ≠ "" → filterByPrefix tasks pfx
        = tasks.filter (fun t => decide (pfx.data <+: t.localName.data))) := by
  constructor
  · simp [filterByPrefix]
  · intro h
    have hfun : (fun t : ParsedTask => jsStartsWith t.localName pfx)
        = fun t => decide (pfx.data <+: t.localName.data) := by
      funext t
      simp [jsStartsWith, isPrefixOf_eq_decide]
    rw [filterByPrefix, if_neg h, hfun]

theorem filterByPrefix_spec_witness :
    ("ci:build" : String) ≠ ""
    ∧ filterByPrefix
        (parseMiseTasks [{ name := "ci:build" }, { name := "ci:build:docker" },
          { name := "ci:test" }]) "ci:build"
      = (parseMiseTasks [{ name := "ci:build" }, { name := "ci:build:docker" },
          { name := "ci:test" }]).filter
          (fun t => decide ("ci:build".data <+: t.localName.data)) :=
  ⟨by decide, (filterByPrefix_spec _ "ci:build").2 (by decide)⟩


theorem filterLoop_append (git : List String → ExecOutcome) (baseRef : String)
    (l₁ l₂ : List ParsedTask) :
    filterLoop git baseRef (l₁ ++ l₂)
      = ((filterLoop git baseRef l₁).1 ++ (filterLoop git baseRef l₂).1,
         (filterLoop git baseRef l₁).2 ++ (filterLoop git baseRef l₂).2) := by
  induction l₁ with
  | nil => simp [filterLoop]
  | cons task rest ih =>
    by_cases hs : task.sources.length = 0
    · simp [filterLoop, hs, ih]
    · cases hg : git (gitDiffArgs baseRef task) with
      | code n => cases n <;> simp [filterLoop, hs, hg, ih]
      | fault => simp [filterLoop, hs, hg, ih]

/-- C2: for a task with non-empty sources, the change filter drops it exactly
when the diff query returns exit code 0, keeps it on any non-zero exit code,
and on a thrown fault keeps it, logs a fail-open warning, and still processes
the surrounding tasks normally. -/
theorem filterByChangedSources_decision (git : List String → ExecOutcome)
    (baseRef : String) (pre post : List ParsedTask) (task : ParsedTask)
    (h : task.sources ≠ []) :
    (git (gitDiffArgs baseRef task) = .code 0 →
      (filterByChangedSources git (pre ++ task :: post) baseRef).1
        = (filterByChangedSources git pre baseRef).1
          ++ (filterByChangedSources git post baseRef).1)
    ∧ (∀ n : Nat, n ≠ 0 → git (gitDiffArgs baseRef task) = .code n →
      (filterByChangedSources git (pre ++ task :: post) baseRef).1
        = (filterByChangedSources git pre baseRef).1
          ++ task :: (filterByChangedSources git post baseRef).1)
    ∧ (git (gitDiffArgs baseRef task) = .fault →
      ((filterByChangedSources git (pre ++ task :: post) baseRef).1
        = (filterByChangedSources git pre baseRef).1
          ++ task :: (filterByChangedSources git post baseRef).1)
      ∧ LogEvent.warning s!"  {task.task}: git diff failed, included (fail-open)"
          ∈ (filterByChangedSources git (pre ++ task :: post) baseRef).2) := by
  have hlen : ¬ task.sources.length = 0 := by
    simpa [List.length_eq_zero] using h
  refine ⟨fun hg => ?_, fun n hn hg => ?_, fun hg => ⟨?_, ?_⟩⟩
  · simp [filterByChangedSources, filterLoop_append, filterLoop, hlen, hg]
  · cases n with
    | zero => exact absurd rfl hn
    | succ k => simp [filterByChangedSources, filterLoop_append, filterLoop, hlen, hg]
  · simp [filterByChangedSources, filterLoop_append, filterLoop, hlen, hg]
  · simp [filterByChangedSources, filterLoop_append, filterLoop, hlen, hg]

theorem filterByChangedSources_decision_witness :
    (["src/**"] : List String) ≠ []
    ∧ (filterByChangedSources (fun _ => ExecOutcome.code 0)
        ([] ++ ⟨".", "ci:build", "ci:build", ["src/**"]⟩ :: []) "abc").1
      = (filterByChangedSources (fun _ => ExecOutcome.code 0) [] "abc").1
        ++ (filterByChangedSources (fun _ => ExecOutcome.code 0) [] "abc").1
    ∧ LogEvent.warning "  ci:build: git diff failed, included (fail-open)"
        ∈ (filterByChangedSources (fun _ => ExecOutcome.fault)
            ([] ++ ⟨".", "ci:build", "ci:build", ["src/**"]⟩ :: []) "abc").2 :=
  ⟨by decide,
    (filterByChangedSources_decision _ "abc" [] [] _ (by decide)).1 rfl,
    ((filterByChangedSources_decision _ "abc" [] [] _ (by decide)).2.2 rfl).2⟩

/-- C3 amended: the diff query for a task with non-empty sources passes one
pathspec per source glob, each being `:(glob)` followed by the glob, with
the glob prefixed by `project + "/"` when the project is not `"."`. -/
theorem filterByChangedSources_pathspecs (git : List String → ExecOutcome)
    (baseRef : String) (task : ParsedTask) (rest : List ParsedTask)
    (h : task.sources ≠ []) :
    LogEvent.execGit (["diff", "--quiet", baseRef, "HEAD", "--"]
        ++ task.sources.map (specPathspec task.project))
      ∈ (filterByChangedSources git (task :: rest) baseRef).2 := by
  have hlen : ¬ task.sources.length = 0 := by
    simpa [List.length_eq_zero] using h
  have hargs : gitDiffArgs baseRef task
      = ["diff", "--quiet", baseRef, "HEAD", "--"]
        ++ task.sources.map (specPathspec task.project) := rfl
  cases hg : git (gitDiffArgs baseRef task) with
  | code n => cases n <;> simp [filterByChangedSources, filterLoop, hlen, hg, ← hargs]
  | fault => simp [filterByChangedSources, filterLoop, hlen, hg, ← hargs]

theorem filterByChangedSources_pathspecs_witness :
    (["src/**"] : List String) ≠ []
    ∧ LogEvent.execGit (["diff", "--quiet", "abc", "HEAD", "--"]
        ++ ["src/**"].map (specPathspec "services/api"))
      ∈ (filterByChangedSources (fun _ => ExecOutcome.code 1)
          [⟨"services/api", "//services/api:ci:build", "ci:build", ["src/**"]⟩] "abc").2 :=
  ⟨by decide, filterByChangedSources_pathspecs _ "abc" _ [] (by decide)⟩

/-- C3 counterexample: for a task in project `services/api` with source glob
`src/**`, the diff query receives the pathspec `:(glob)services/api/src/**`,
not the bare `services/api/src/**` the claim names. -/
theorem filterByChangedSources_pathspecs_counterexample :
    (LogEvent.execGit ["diff", "--quiet", "abc", "HEAD", "--", ":(glob)services/api/src/**"]
      ∈ (filterByChangedSources (fun _ => ExecOutcome.code 1)
          [⟨"services/api", "//services/api:ci:build", "ci:build", ["src/**"]⟩] "abc").2)
    ∧ ¬ (LogEvent.execGit ["diff", "--quiet", "abc", "HEAD", "--", "services/api/src/**"]
      ∈ (filterByChangedSources (fun _ => ExecOutcome.code 1)
          [⟨"services/api", "//services/api:ci:build", "ci:build", ["src/**"]⟩] "abc").2) := by
  decide

theorem execArgsOf_filterLoop (git : List String → ExecOutcome) (baseRef : String)
    (tasks : List ParsedTask) :
    execArgsOf (filterLoop git baseRef tasks).2
      = (tasks.filter (fun t => decide (t.sources ≠ []))).map (gitDiffArgs baseRef) := by
  induction tasks with
  | nil => rfl
  | cons task rest ih =>
    by_cases hs : task.sources.length = 0
    · have hs' : task.sources = [] := List.length_eq_zero.mp hs
      simp [filterLoop, hs, execArgsOf, hs', ih]
    · have hs' : task.sources ≠ [] := by simpa [List.length_eq_zero] using hs
      cases hg : git (gitDiffArgs baseRef task) with
      | code n => cases n <;> simp [filterLoop, hs, hg, execArgsOf, hs', ih]
      | fault => simp [filterLoop, hs, hg, execArgsOf, hs', ih]

/-- C7: the diff queries issued by the change filter are exactly one per
input task with non-empty sources, in input order (so their number equals
the number of such tasks and no query is issued for a sourceless task); and
every task with empty sources is retained unconditionally. -/
theorem filterByChangedSources_queries (git : List String → ExecOutcome)
    (baseRef : String) (tasks : List ParsedTask) :
    (execArgsOf (filterByChangedSources git tasks baseRef).2
      = (tasks.filter (fun t => decide (t.sources ≠ []))).map (gitDiffArgs baseRef))
    ∧ ∀ pre task post, tasks = pre ++ task :: post → task.sources = [] →
        (filterByChangedSources git tasks baseRef).1
          = (filterByChangedSources git pre baseRef).1
            ++ task :: (filterByChangedSources git post baseRef).1 := by
  constructor
  · simp [filterByChangedSources, execArgsOf, execArgsOf_filterLoop]
  · intro pre task post htasks hempty
    subst htasks
    simp [filterByChangedSources, filterLoop_append, filterLoop, hempty]

theorem filterByChangedSources_queries_witness :
    ([] ++ (⟨".", "ci:test", "ci:test", []⟩ : ParsedTask) :: []
        = [] ++ (⟨".", "ci:test", "ci:test", []⟩ : ParsedTask) :: [])
    ∧ (filterByChangedSources (fun _ => ExecOutcome.code 0)
        ([] ++ (⟨".", "ci:test", "ci:test", []⟩ : ParsedTask) :: []) "abc").1
      = (filterByChangedSources (fun _ => ExecOutcome.code 0) [] "abc").1
        ++ (⟨".", "ci:test", "ci:test", []⟩ : ParsedTask)
          :: (filterByChangedSources (fun _ => ExecOutcome.code 0) [] "abc").1 :=
  ⟨rfl,
    (filterByChangedSources_queries (fun _ => ExecOutcome.code 0) "abc"
        ([] ++ (⟨".", "ci:test", "ci:test", []⟩ : ParsedTask) :: [])).2
      [] _ [] rfl rfl⟩


theorem getTaskList_addTask (acc : List (String × List String)) (p n q : String) :
    getTaskList (addTask acc p n) q
      = if q = p then getTaskList acc q ++ [n] else getTaskList acc q := by
  induction acc with
  | nil =>
    by_cases hq : q = p
    · subst hq
      simp [addTask, getTaskList]
    · have hpq : ¬ p = q := fun h => hq h.symm
      simp [addTask, getTaskList, hq, hpq]
  | cons e rest ih =>
    obtain ⟨k, ns⟩ := e
    by_cases hk : k = p
    · subst hk
      by_cases hq : q = k
      · subst hq
        simp [addTask, getTaskList]
      · have hkq : ¬ k = q := fun h => hq h.symm
        simp [addTask, getTaskList, hq, hkq]
    · by_cases hq : k = q
      · subst hq
        simp [addTask, getTaskList, hk]
      · simp [addTask, getTaskList, hk, hq, ih]

theorem keysOf_addTask (acc : List (String × List String)) (p n : String) :
    keysOf (addTask acc p n)
      = if p ∈ keysOf acc then keysOf acc else keysOf acc ++ [p] := by
  induction acc with
  | nil => simp [addTask, keysOf]
  | cons e rest ih =>
    obtain ⟨k, ns⟩ := e
    by_cases hk : k = p
    · subst hk
      simp [addTask, keysOf]
    · have hpk : ¬ p = k := fun h => hk h.symm
      have ih' : List.map Prod.fst (addTask rest p n)
          = if p ∈ List.map Prod.fst rest then List.map Prod.fst rest
            else List.map Prod.fst rest ++ [p] := by
        simpa [keysOf] using ih
      by_cases hp : p ∈ List.map Prod.fst rest <;>
        simp [addTask, keysOf, hk, hpk, hp, ih', List.mem_cons]

theorem firstSeen_congr (l : List String) (s₁ s₂ : List String)
    (h : ∀ x, x ∈ s₁ ↔ x ∈ s₂) : firstSeen s₁ l = firstSeen s₂ l := by
  induction l generalizing s₁ s₂ with
  | nil => rfl
  | cons p rest ih =>
    by_cases hp : p ∈ s₁
    · simp [firstSeen, hp, (h p).mp hp]
      exact ih s₁ s₂ h
    · have hp₂ : p ∉ s₂ := fun m => hp ((h p).mpr m)
      simp [firstSeen, hp, hp₂]
      exact ih _ _ (fun x => by simp [List.mem_cons, h x])

theorem getTaskList_foldl (ts : List ParsedTask) (acc : List (String × List String))
    (p : String) :
    getTaskList (ts.foldl (fun a t => addTask a t.project t.task) acc) p
      = getTaskList acc p
        ++ (ts.filter (fun t => decide (t.project = p))).map (fun t => t.task) := by
  induction ts generalizing acc with
  | nil => simp
  | cons t rest ih =>
    simp only [List.foldl_cons]
    rw [ih, getTaskList_addTask]
    by_cases hp : p = t.project
    · subst hp
      simp
    · have hp' : ¬ t.project = p := fun h => hp h.symm
      simp [hp, hp']

theorem keysOf_foldl (ts : List ParsedTask) (acc : List (String × List String)) :
    keysOf (ts.foldl (fun a t => addTask a t.project t.task) acc)
      = keysOf acc ++ firstSeen (keysOf acc) (ts.map (fun t => t.project)) := by
  induction ts generalizing acc with
  | nil => simp [firstSeen]
  | cons t rest ih =>
    simp only [List.foldl_cons, List.map_cons, firstSeen]
    by_cases hp : t.project ∈ keysOf acc
    · rw [ih, keysOf_addTask, if_pos hp, if_pos hp]
    · rw [ih, keysOf_addTask, if_neg hp, if_neg hp,
        firstSeen_congr (rest.map (fun t => t.project)) (keysOf acc ++ [t.project])
          (t.project :: keysOf acc) (fun x => by simp [or_comm])]
      simp

theorem keysOf_nodup_addTask (acc : List (String × List String)) (p n : String)
    (h : (keysOf acc).Nodup) : (keysOf (addTask acc p n)).Nodup := by
  rw [keysOf_addTask]
  by_cases hp : p ∈ keysOf acc
  · simpa [hp] using h
  · simp [hp, List.nodup_append, h]

theorem keysOf_nodup_foldl (ts : List ParsedTask) (acc : List (String × List String))
    (h : (keysOf acc).Nodup) :
    (keysOf (ts.foldl (fun a t => addTask a t.project t.task) acc)).Nodup := by
  induction ts generalizing acc with
  | nil => exact h
  | cons t rest ih =>
    simp only [List.foldl_cons]
    exact ih _ (keysOf_nodup_addTask acc t.project t.task h)

theorem assoc_eta (m : List (String × List String)) (h : (keysOf m).Nodup) :
    m = (keysOf m).map (fun p => (p, getTaskList m p)) := by
  induction m with
  | nil => rfl
  | cons e rest ih =>
    obtain ⟨k, ns⟩ := e
    have hk : k ∉ List.map Prod.fst rest := by
      have := h
      simp only [keysOf, List.map_cons, List.nodup_cons] at this
      exact this.1
    have hrest : (keysOf rest).Nodup := by
      have := h
      simp only [keysOf, List.map_cons, List.nodup_cons] at this
      exact this.2
    simp only [keysOf, List.map_cons, List.map_map]
    refine congrArg₂ List.cons ?_ ?_
    · simp [getTaskList]
    · calc rest = (keysOf rest).map (fun p => (p, getTaskList rest p)) := ih hrest
        _ = List.map ((fun p => (p, getTaskList ((k, ns) :: rest) p)) ∘ Prod.fst) rest := by
            rw [keysOf, List.map_map]
            apply List.map_congr_left
            intro e he
            have hne : ¬ k = e.1 := fun hkeq => hk (hkeq ▸ List.mem_map_of_mem Prod.fst he)
            simp [Function.comp, getTaskList, hne]

/-- C5: grouping emits one group per distinct project, in order of first
appearance in the input, with the project's task names accumulated in input
order and joined by the exact delimiter `" ::: "`; the empty input yields
the empty output. -/
theorem groupByProject_spec (tasks : List ParsedTask) :
    groupByProject tasks
      = (firstSeen [] (tasks.map (fun t => t.project))).map
          (fun p =>
            { project := p
              tasks := String.intercalate " ::: "
                  ((tasks.filter (fun t => decide (t.project = p))).map
                    (fun t => t.task)) }) := by
  have hnodup : (keysOf (tasks.foldl (fun a t => addTask a t.project t.task) [])).Nodup :=
    keysOf_nodup_foldl tasks [] (by simp [keysOf])
  have hkeys : keysOf (tasks.foldl (fun a t => addTask a t.project t.task) [])
      = firstSeen [] (tasks.map (fun t => t.project)) := by
    simpa [keysOf, firstSeen] using keysOf_foldl tasks []
  simp only [groupByProject]
  conv_lhs => rw [assoc_eta _ hnodup]
  rw [List.map_map, hkeys]
  apply List.map_congr_left
  intro p _
  simp [Function.comp, getTaskList_foldl, getTaskList]

end MiseDiscover
